import Mathlib

/-!
Verification of the cyber-daily-news pipeline (cyber-daily-news.py).

Strings from the Python source are modelled as `List Char` (`Str`), so that
every operation (strip, slicing, splitting, substring search) is an
executable Lean function mirroring the Python string methods used by the
source.  Real-valued quantities coming from Python floats (layout
coordinates, widths, similarity ratios) are modelled as exact rationals;
the scoring functions, which use `math.exp`, are modelled over the reals.
-/

set_option maxHeartbeats 1000000

/-- Python strings are modelled as lists of characters. -/
abbrev Str := List Char

/-- Shorthand turning a Lean string literal into the `List Char` model. -/
def S (s : String) : Str := s.data

/-- The space character (U+0020). -/
def spaceChar : Char := Char.ofNat 32

/-- The characters Python `str.strip()` removes by default
(space, tab, newline, carriage return, vertical tab, form feed). -/
def isWs (c : Char) : Bool :=
  c = spaceChar || c = '\t' || c = '\n' || c = '\r' ||
  c = Char.ofNat 11 || c = Char.ofNat 12

/-- Python `str.lstrip()`. -/
def pyLStrip (l : Str) : Str := l.dropWhile isWs

/-- Python `str.rstrip()`. -/
def pyRStrip (l : Str) : Str := (l.reverse.dropWhile isWs).reverse

/-- Python `str.strip()`. -/
def pyStrip (l : Str) : Str := pyRStrip (pyLStrip l)

/-- Python `str.lower()` (ASCII case folding, which covers the source's
keyword and category terms). -/
def pyLower (l : Str) : Str := l.map Char.toLower

/-- Python substring test `needle in hay`. -/
def isSub (needle : Str) : Str → Bool
  | [] => needle.isEmpty
  | c :: t => needle.isPrefixOf (c :: t) || isSub needle t

/- ================= configuration defaults (lines 104-117) ================= -/

/-- `TOP_N` default (line 104). -/
def TOP_N : ℕ := 10

/-- `LOOKBACK_HOURS` default (line 105). -/
def LOOKBACK_HOURS : ℕ := 72

/-- `MAX_KEYWORD_SCORE` default (line 107). -/
def MAX_KEYWORD_SCORE : ℕ := 80

/-- `DUPLICATE_THRESHOLD` default (line 108). -/
def DUPLICATE_THRESHOLD : ℚ := 93 / 100

/-- `WHATSAPP_MAX_LEN` default (line 117). -/
def WHATSAPP_MAX_LEN : ℕ := 1500

/- ================= shorten (lines 232-239) ================= -/

/-- Python `s.rsplit(" ", 1)[0]` for a string known to contain a space:
everything strictly before the last space character. -/
def dropLastSpaceTail (l : Str) : Str :=
  ((l.reverse.dropWhile (fun c => !(c = spaceChar))).drop 1).reverse

/-- `shorten(s, max_chars)` (source lines 232-239): strip, return if within
budget, otherwise cut at `max_chars+1`, back off to the last space if the cut
contains one, right-strip and append one ellipsis character. -/
def shorten (s : Str) (max_chars : ℕ) : Str :=
  let s' := pyStrip s
  if s'.length ≤ max_chars then s'
  else
    let cut := s'.take (max_chars + 1)
    let cut' := if spaceChar ∈ cut then dropLastSpaceTail cut else cut
    pyRStrip cut' ++ ['…']

/- ================= prefix_parts (lines 526-530) ================= -/

/-- Decimal representation of a natural number, as a `Str`. -/
def natStr (n : ℕ) : Str := (Nat.repr n).data

/-- Python `enumerate(chunks, 1)`. -/
def enumFrom : ℕ → List α → List (ℕ × α)
  | _, [] => []
  | k, a :: l => (k, a) :: enumFrom (k + 1) l

/-- `prefix_parts(chunks)` (source lines 526-530): lists of length at most one
are returned unchanged; otherwise every chunk `i` of `total` is rebuilt as
`f"({i}/{total})\n{c}"` with `i` counted from 1. -/
def prefix_parts (chunks : List Str) : List Str :=
  if chunks.length ≤ 1 then chunks
  else
    (enumFrom 1 chunks).map fun ic =>
      S "(" ++ natStr ic.1 ++ S "/" ++ natStr chunks.length ++ S ")\n" ++ ic.2

/- ================= layout engine state (lines 535-783) ================= -/

/-- One point per unit; `inch = 72` points (reportlab `inch`). -/
def inchQ : ℚ := 72

/-- Page height of landscape LETTER (612 points). -/
def pageHeightQ : ℚ := 612

/-- `margin = 0.55 * inch` (line 540). -/
def marginQ : ℚ := 0.55 * inchQ

/-- `top = height - margin` (line 541). -/
def topQ : ℚ := pageHeightQ - marginQ

/-- `bottom = 0.65 * inch` (line 542). -/
def bottomQ : ℚ := 0.65 * inchQ

/-- Mutable cursor state of `build_pdf_bytes`: the two per-column cursors
`col_y[0]`, `col_y[1]`, the active column index `current_col`, and the page
counter `page_num`. -/
structure LayoutState where
  colY0 : ℚ
  colY1 : ℚ
  currentCol : Fin 2
  page : ℕ
deriving DecidableEq

/-- `col_y[current_col]` of a layout state. -/
def colYAt (s : LayoutState) (i : Fin 2) : ℚ :=
  if i = 0 then s.colY0 else s.colY1

/-- `ensure_room(need)` (source lines 756-767): return unchanged if the block
fits the active column; else, when the active column is column 0 and column 1
fits it, switch the active column; otherwise open a new page, reset both
cursors to the top and make column 0 active. -/
def ensure_room (need : ℚ) (s : LayoutState) : LayoutState :=
  if bottomQ ≤ colYAt s s.currentCol - need then s
  else if s.currentCol = 0 ∧ bottomQ ≤ s.colY1 - need then
    { s with currentCol := 1 }
  else
    { s with page := s.page + 1, colY0 := topQ, colY1 := topQ, currentCol := 0 }

/- ================= classify (lines 403-413) ================= -/

/-- The five mutually exclusive categories assigned by `classify`. -/
inductive NewsCategory where
  | zeroDays | ransomware | breaches | phishing | other
deriving DecidableEq

/-- `classify(item)` (source lines 403-413): first match wins over the
lower-cased concatenation of title, a space, and summary. -/
def classify (title summary : Str) : NewsCategory :=
  let text := pyLower (title ++ [spaceChar] ++ summary)
  if isSub (S "zero-day") text || isSub (S "zero day") text ||
     isSub (S "0day") text || isSub (S "actively exploited") text then
    .zeroDays
  else if isSub (S "ransomware") text then .ransomware
  else if isSub (S "breach") text || isSub (S "data breach") text then .breaches
  else if isSub (S "phishing") text then .phishing
  else .other

/-- Modelled from the spec (section 4.5): the precedence chain
"zero-day-family terms → ZERO-DAYS; ransomware term → RANSOMWARE;
breach terms → BREACHES; phishing term → PHISHING; else OTHER",
each step being a case-insensitive substring test of a term list over
title+summary. -/
def classify_spec (title summary : Str) : NewsCategory :=
  let text := pyLower (title ++ [spaceChar] ++ summary)
  if [S "zero-day", S "zero day", S "0day", S "actively exploited"].any
      (fun t => isSub t text) then .zeroDays
  else if [S "ransomware"].any (fun t => isSub t text) then .ransomware
  else if [S "breach", S "data breach"].any (fun t => isSub t text) then .breaches
  else if [S "phishing"].any (fun t => isSub t text) then .phishing
  else .other

/- ============ difflib.SequenceMatcher ratio (used at line 400) ============ -/

/-- State of difflib's `find_longest_match` dynamic programming: the
`j2len` table of run lengths and the best block found so far. -/
structure MatchSt where
  j2len : ℕ → ℕ
  besti : ℕ
  bestj : ℕ
  bestsize : ℕ

/-- Inner step of `find_longest_match`: one index `j` with `b[j] == a[i]`;
`j2old` is the `j2len` table from the previous row. -/
def flmStepJ (i : ℕ) (j2old : ℕ → ℕ) (st : MatchSt) (j : ℕ) : MatchSt :=
  let k := (if j = 0 then 0 else j2old (j - 1)) + 1
  let st' := { st with j2len := fun x => if x = j then k else st.j2len x }
  if st.bestsize < k then
    { st' with besti := i + 1 - k, bestj := j + 1 - k, bestsize := k }
  else st'

/-- Outer step of `find_longest_match`: one row `i`, scanning the positions
of `a[i]` inside `b[blo:bhi]` in ascending order. -/
def flmStepI (a b : Str) (blo bhi : ℕ) (st : MatchSt) (i : ℕ) : MatchSt :=
  let js := (List.range bhi).filter fun j =>
    decide (blo ≤ j) && (b.getD j spaceChar == a.getD i spaceChar)
  js.foldl (flmStepJ i st.j2len) { st with j2len := fun _ => 0 }

/-- The dynamic-programming core of difflib's `find_longest_match` over
`a[alo:ahi]` and `b[blo:bhi]` (no junk: the matcher is built with
`SequenceMatcher(None, ...)` and the titles compared stay far below the
autojunk threshold of 200 characters). -/
def flmCore (a b : Str) (alo ahi blo bhi : ℕ) : MatchSt :=
  (List.range' alo (ahi - alo)).foldl (flmStepI a b blo bhi)
    { j2len := fun _ => 0, besti := alo, bestj := blo, bestsize := 0 }

/-- Leftward extension of the best block (difflib's first widening loop). -/
def extLeft (a b : Str) (alo blo : ℕ) : ℕ → ℕ × ℕ × ℕ → ℕ × ℕ × ℕ
  | 0, st => st
  | fuel + 1, (bi, bj, bs) =>
    if alo < bi && blo < bj &&
       (a.getD (bi - 1) spaceChar == b.getD (bj - 1) spaceChar) then
      extLeft a b alo blo fuel (bi - 1, bj - 1, bs + 1)
    else (bi, bj, bs)

/-- Rightward extension of the best block (difflib's second widening loop). -/
def extRight (a b : Str) (ahi bhi : ℕ) : ℕ → ℕ × ℕ × ℕ → ℕ × ℕ × ℕ
  | 0, st => st
  | fuel + 1, (bi, bj, bs) =>
    if bi + bs < ahi && bj + bs < bhi &&
       (a.getD (bi + bs) spaceChar == b.getD (bj + bs) spaceChar) then
      extRight a b ahi bhi fuel (bi, bj, bs + 1)
    else (bi, bj, bs)

/-- difflib `find_longest_match` over `a[alo:ahi]`, `b[blo:bhi]`. -/
def find_longest_match (a b : Str) (alo ahi blo bhi : ℕ) : ℕ × ℕ × ℕ :=
  let st := flmCore a b alo ahi blo bhi
  let m1 := extLeft a b alo blo st.besti (st.besti, st.bestj, st.bestsize)
  extRight a b ahi bhi (ahi - (m1.1 + m1.2.2)) m1

/-- Total size of difflib's matching blocks over `a[alo:ahi]`, `b[blo:bhi]`
(the recursion of `get_matching_blocks`, summed).  The fuel argument bounds
the recursion depth; `a.length + 1` always suffices. -/
def matchTotal (a b : Str) : ℕ → ℕ × ℕ × ℕ × ℕ → ℕ
  | 0, _ => 0
  | fuel + 1, (alo, ahi, blo, bhi) =>
    let m := find_longest_match a b alo ahi blo bhi
    if m.2.2 = 0 then 0
    else
      m.2.2 + matchTotal a b fuel (alo, m.1, blo, m.2.1)
        + matchTotal a b fuel (m.1 + m.2.2, ahi, m.2.1 + m.2.2, bhi)

/-- difflib `SequenceMatcher(None, a, b).ratio()`:
`2 * (total matched) / (len(a) + len(b))`, and 1 for two empty strings. -/
def ratioVal (a b : Str) : ℚ :=
  if a.length + b.length = 0 then 1
  else
    2 * (matchTotal a b (a.length + 1) (0, a.length, 0, b.length) : ℚ) /
      (a.length + b.length)

/-- `is_duplicate_title(title, seen_titles, threshold)` (source lines
398-400): true when some previously seen title's lower-cased stripped form
has similarity ratio strictly above the threshold. -/
def is_duplicate_title (title : Str) (seen_titles : List Str) (threshold : ℚ) :
    Bool :=
  let t := pyStrip (pyLower title)
  seen_titles.any fun s2 => threshold < ratioVal t (pyStrip (pyLower s2))

/- ============ deduplication loop of collect_and_rank (lines 429-459) ===== -/

/-- One feed entry after line 434-435 preprocessing: `title` is the
whitespace-normalized title, `link` the canonicalized link. -/
structure FeedCand where
  title : Str
  link : Str
deriving DecidableEq

/-- The accumulators of `collect_and_rank`'s loop: `seen_titles`,
`seen_links` (a set, modelled as a duplicate-free list) and the accepted
articles in acceptance order. -/
structure DedupState where
  seenTitles : List Str
  seenLinks : List Str
  accepted : List FeedCand
deriving DecidableEq

/-- The body of `collect_and_rank`'s per-entry loop (source lines 437-459),
restricted to its dedup effect: skip empty titles; skip links already seen,
otherwise record the link at once; then skip near-duplicate titles; finally
record the title and accept the article. -/
def dedupStep (st : DedupState) (c : FeedCand) : DedupState :=
  if c.title = [] then st
  else if c.link ≠ [] ∧ c.link ∈ st.seenLinks then st
  else
    let st1 :=
      if c.link ≠ [] then { st with seenLinks := st.seenLinks ++ [c.link] }
      else st
    if is_duplicate_title c.title st1.seenTitles DUPLICATE_THRESHOLD then st1
    else
      { st1 with
        seenTitles := st1.seenTitles ++ [c.title],
        accepted := st1.accepted ++ [c] }

/-- The whole deduplication pass over the combined entry stream, starting
from the empty accumulators of lines 419-421. -/
def dedupRun (cands : List FeedCand) : DedupState :=
  cands.foldl dedupStep ⟨[], [], []⟩

/- ============ text measurement and URL wrapping (lines 243-301) ========== -/

/-- Measured width of a string for an additive character-width function `w`
(reportlab's `stringWidth` sums per-character advances). -/
def widthOf (w : Char → ℚ) (s : Str) : ℚ := (s.map w).sum

/-- The URL break characters `_URL_BREAK_CHARS` (line 243). -/
def urlBreakChars : Str := S "/?&=_-.#:"

/-- Membership in `_URL_BREAK_CHARS`. -/
def isBreakChar (c : Char) : Bool := urlBreakChars.contains c

/-- Position (1-based, after the character) of the last break character of
`cur`, or `-1` when there is none — the `for i, cc in enumerate(cur, 1)`
rescan at lines 275-278. -/
def lastBreakPos (cur : Str) : Int :=
  cur.enum.foldl
    (fun acc ic => if isBreakChar ic.2 then ((ic.1 : Int) + 1) else acc) (-1)

/-- Loop state of `wrap_url_smart`: emitted lines, current accumulation and
the `last_break_pos` sentinel. -/
structure WrapSt where
  lines : List Str
  cur : Str
  lbp : Int

/-- One character step of `wrap_url_smart`'s loop (source lines 255-278). -/
def wrapStep (w : Char → ℚ) (maxw : ℚ) (st : WrapSt) (ch : Char) : WrapSt :=
  let cand := st.cur ++ [ch]
  let lbp1 := if isBreakChar ch then ((cand.length : ℕ) : Int) else st.lbp
  if widthOf w cand ≤ maxw then { st with cur := cand, lbp := lbp1 }
  else
    let flushed : List Str × Str :=
      if 0 < lbp1 then
        let keep := pyLStrip (st.cur.drop lbp1.toNat)
        (st.lines ++ [pyRStrip (st.cur.take lbp1.toNat)],
         if keep ≠ [] then keep ++ [ch] else [ch])
      else if st.cur ≠ [] then (st.lines ++ [st.cur], [ch])
      else (st.lines ++ [[ch]], [])
    { lines := flushed.1, cur := flushed.2, lbp := lastBreakPos flushed.2 }

/-- `wrap_url_smart(c, url, font, size, max_width)` (source lines 245-282)
with the canvas measurement abstracted into the additive width `w`. -/
def wrap_url_smart (w : Char → ℚ) (maxw : ℚ) (url0 : Str) : List Str :=
  let url := pyStrip url0
  if url = [] then []
  else
    let st := url.foldl (wrapStep w maxw) ⟨[], [], -1⟩
    if st.cur ≠ [] then st.lines ++ [st.cur] else st.lines

/-- Candidate string probed by `ellipsize_line_to_width`'s binary search:
`text[:m].rstrip() + "…"`. -/
def ellCand (text : Str) (m : ℕ) : Str := pyRStrip (text.take m) ++ ['…']

/-- The binary-search loop of `ellipsize_line_to_width` (source lines
292-300); the fuel argument bounds the iteration count and
`text.length + 2` always suffices. -/
def ellLoop (w : Char → ℚ) (maxw : ℚ) (text : Str) :
    ℕ → Int → Int → Str → Str
  | 0, _, _, best => best
  | fuel + 1, lo, hi, best =>
    if hi < lo then best
    else
      let mid : Int := (lo + hi) / 2
      let cand := ellCand text mid.toNat
      if widthOf w cand ≤ maxw then ellLoop w maxw text fuel (mid + 1) hi cand
      else ellLoop w maxw text fuel lo (mid - 1) best

/-- `ellipsize_line_to_width(c, text, font, size, max_width)` (source lines
285-301) with the measurement abstracted into the additive width `w`. -/
def ellipsize_line_to_width (w : Char → ℚ) (maxw : ℚ) (text : Str) : Str :=
  if widthOf w text ≤ maxw then text
  else
    let best := ellLoop w maxw text (text.length + 2) 0 (text.length : Int) []
    if best = [] then ['…'] else best

/- ============ final ranking step of collect_and_rank (lines 461-462) ===== -/

/-- An article reduced to what the final sort reads: its score and its
encounter position in the combined source-iteration order. -/
structure ScoredItem where
  score : ℚ
  idx : ℕ
deriving DecidableEq

/-- Stable descending insertion: the new element goes after every element
of score at least its own. -/
def ordInsert (a : ScoredItem) : List ScoredItem → List ScoredItem
  | [] => [a]
  | b :: l => if b.score ≤ a.score then a :: b :: l else b :: ordInsert a l

/-- Stable sort descending by score, modelling
`articles.sort(key=lambda x: x["score"], reverse=True)` (line 461);
Python's list sort is stable. -/
def sortDesc : List ScoredItem → List ScoredItem
  | [] => []
  | x :: xs => ordInsert x (sortDesc xs)

/-- The ranking pipeline's final step (lines 461-462): stable sort
descending by score, then truncate to `TOP_N`. -/
def collect_and_rank_order (l : List ScoredItem) : List ScoredItem :=
  (sortDesc l).take TOP_N

/- ============ chunk_text (lines 490-523) ========== -/

/-- The paragraph separator `"\n\n"`. -/
def nnSep : Str := ['\n', '\n']

/-- Python `text.split("\n\n")`: split at every non-overlapping occurrence
of the two-newline separator, scanning left to right. -/
def splitNN : Str → List Str
  | [] => [[]]
  | [c] => [[c]]
  | c1 :: c2 :: rest =>
    if c1 = '\n' ∧ c2 = '\n' then [] :: splitNN rest
    else
      match splitNN (c2 :: rest) with
      | [] => [[c1]]
      | h :: t => (c1 :: h) :: t

/-- The `while len(p) > max_len` hard-split loop (source lines 515-517),
returning the emitted pieces and the remainder; fuel `p.length` suffices
whenever `1 ≤ max_len`. -/
def hardSplit (max_len : ℕ) : ℕ → Str → List Str × Str
  | 0, p => ([], p)
  | fuel + 1, p =>
    if max_len < p.length then
      let res := hardSplit max_len fuel (p.drop max_len)
      (p.take max_len :: res.1, res.2)
    else ([], p)

/-- One paragraph step of `chunk_text`'s loop (source lines 502-518), over
the state `(chunks, buf)`. -/
def chunkStep (max_len : ℕ) (st : List Str × Str) (p0 : Str) :
    List Str × Str :=
  let p := pyStrip p0
  if p = [] then st
  else
    let buf := st.2
    let cand := pyStrip (buf ++ (if buf ≠ [] then nnSep else []) ++ p)
    if cand.length ≤ max_len then (st.1, cand)
    else
      let chunks1 := if buf ≠ [] then st.1 ++ [buf] else st.1
      let hs := hardSplit max_len p.length p
      (chunks1 ++ hs.1, hs.2)

/-- `chunk_text(text, max_len)` (source lines 490-523). -/
def chunk_text (text0 : Str) (max_len : ℕ) : List Str :=
  let text := pyStrip text0
  if text = [] then [[]]
  else if text.length ≤ max_len then [text]
  else
    let st := (splitNN text).foldl (chunkStep max_len) ([], [])
    if st.2 ≠ [] then st.1 ++ [st.2] else st.1

/-- The non-empty stripped paragraphs of a text, in order — the units the
chunker works with (`for p in parts: p = p.strip(); if not p: continue`). -/
def parasOf (text : Str) : List Str :=
  ((splitNN text).map pyStrip).filter (fun p => !p.isEmpty)

/-- Join a list of paragraphs with the blank-line separator (used to state
what chunks look like; the source never re-joins, it only accumulates
`buf + "\n\n" + p`). -/
def joinNN : List Str → Str
  | [] => []
  | [p] => p
  | p :: q :: rest => p ++ nnSep ++ joinNN (q :: rest)

/-- The first character, if any, is not whitespace (a stripped string). -/
def noWsHead (p : Str) : Bool :=
  match p.head? with
  | none => true
  | some c => !isWs c

/-- The last character, if any, is not whitespace (a stripped string). -/
def noWsLast (p : Str) : Bool :=
  match p.getLast? with
  | none => true
  | some c => !isWs c

/-- No two consecutive newline characters: the string contains no blank-line
separator. -/
def NoNN (p : Str) : Prop :=
  List.Chain' (fun a b => ¬(a = '\n' ∧ b = '\n')) p

/-- A well-formed paragraph as produced by `text.split("\n\n")` followed by
`p.strip()`: non-empty, no whitespace at either edge, and no blank-line
separator inside. -/
def GoodPara (p : Str) : Prop :=
  p ≠ [] ∧ noWsHead p = true ∧ noWsLast p = true ∧ NoNN p

/- ============ scoring (lines 306-326) ========== -/

/-- `recency_score(hours_old)` (source lines 306-309): logistic decay with
midpoint `max(1, LOOKBACK_HOURS)` and spread `max(2, midpoint / 4)`. -/
noncomputable def recency_score (hours_old : ℝ) : ℝ :=
  let midpoint : ℝ := max 1 (LOOKBACK_HOURS : ℝ)
  let spread : ℝ := max 2 (midpoint / 4)
  30 / (1 + Real.exp ((hours_old - midpoint) / spread))

open Classical in
/-- Rounding to the nearest integer with ties to even, the rounding mode of
Python's `round`. -/
noncomputable def halfEvenInt (y : ℝ) : ℤ :=
  if Int.fract y = 1 / 2 then (if Even ⌊y⌋ then ⌊y⌋ else ⌊y⌋ + 1)
  else round y

/-- Python `round(x, 1)` as a real operation: round `10 * x` half-to-even
and scale back. -/
noncomputable def pyRound1 (x : ℝ) : ℝ := (halfEvenInt (10 * x) : ℝ) / 10

/-- `compute_score` (source lines 312-326) with the text-derived keyword sum
and the source weight abstracted as inputs: the claim compares articles that
are identical in title, summary and source, for which those two terms are
equal by construction.  The remaining computation is exactly lines 320-326:
clamp the keyword sum, add the source weight, add the clamped recency term,
round to one decimal. -/
noncomputable def compute_score_from
    (keyword_score source_weight hours_old : ℝ) : ℝ :=
  pyRound1 (min keyword_score (MAX_KEYWORD_SCORE : ℝ) + source_weight +
    max 0 (recency_score hours_old))

/- ===================== helper lemmas ===================== -/

theorem dropWhileIsSuffix (p : Char → Bool) (l : Str) : l.dropWhile p <:+ l := by
  induction l with
  | nil => simp
  | cons c t ih =>
    by_cases h : p c
    · simpa [List.dropWhile_cons, h] using ih.trans (List.suffix_cons c t)
    · simp [List.dropWhile_cons, h]

theorem pyRStripLengthLe (l : Str) : (pyRStrip l).length ≤ l.length := by
  have := (dropWhileIsSuffix isWs l.reverse).length_le
  simpa [pyRStrip] using this

theorem dropLastSpaceTailLength (l : Str) :
    (dropLastSpaceTail l).length ≤ l.length - 1 := by
  have h1 := (dropWhileIsSuffix (fun c => !(c = spaceChar)) l.reverse).length_le
  simp only [List.length_reverse] at h1
  simp only [dropLastSpaceTail, List.length_reverse, List.length_drop]
  omega

theorem dropLastSpaceTailPrefix (l : Str) : dropLastSpaceTail l <+: l := by
  have h1 : (l.reverse.dropWhile (fun c => !(c = spaceChar))).drop 1 <:+
      l.reverse :=
    (List.drop_suffix 1 _).trans (dropWhileIsSuffix _ l.reverse)
  have h2 := List.reverse_prefix.mpr h1
  simpa [dropLastSpaceTail] using h2

theorem pyRStripPrefix (l : Str) : pyRStrip l <+: l := by
  have h1 : l.reverse.dropWhile isWs <:+ l.reverse := dropWhileIsSuffix _ _
  have h2 := List.reverse_prefix.mpr h1
  simpa [pyRStrip] using h2

/- ===================== C3 : shorten ===================== -/

/-- C3 counterexample: the claimed bound `len ≤ max_chars + 1` fails.
`shorten("abcdefgh", 3)` is `"abcd…"`, of length 5 > 4: the cut keeps
`max_chars + 1 = 4` characters, and the ellipsis is appended on top of them
when the cut contains no space. -/
theorem shorten_length_counterexample :
    ¬ ((shorten (S "abcdefgh") 3).length ≤ 3 + 1) := by decide

/-- C3 amended: `shorten` strips its input first and returns the stripped
text when that fits the budget; otherwise it cuts at `max_chars + 1`
characters, backs off to the last space when the cut has one (in which case
the result, ellipsis included, has length at most `max_chars + 1`),
right-strips, and appends one ellipsis.  The guaranteed bound in general is
`max_chars + 2`, not `max_chars + 1`. -/
theorem shorten_spec (s : Str) (m : ℕ) :
    (shorten s m).length ≤ m + 2 ∧
    ((pyStrip s).length ≤ m → shorten s m = pyStrip s) ∧
    (m < (pyStrip s).length →
      (shorten s m).getLast? = some '…' ∧
      (∃ pre, pre <+: (pyStrip s).take (m + 1) ∧
        shorten s m = pyRStrip pre ++ ['…']) ∧
      (spaceChar ∈ (pyStrip s).take (m + 1) → (shorten s m).length ≤ m + 1)) := by
  set t := pyStrip s with ht
  by_cases hle : t.length ≤ m
  · refine ⟨?_, fun _ => ?_, fun hlt => absurd hlt (by omega)⟩
    · simp only [shorten, ← ht, if_pos hle]
      omega
    · simp only [shorten, ← ht, if_pos hle]
  · have hlt : m < t.length := by omega
    have hcutlen : (t.take (m + 1)).length = m + 1 := by
      simp [List.length_take]
      omega
    constructor
    · -- length bound
      simp only [shorten, ← ht, if_neg hle]
      by_cases hsp : spaceChar ∈ t.take (m + 1)
      · simp only [if_pos hsp, List.length_append, List.length_singleton]
        have h1 := dropLastSpaceTailLength (t.take (m + 1))
        have h2 := pyRStripLengthLe (dropLastSpaceTail (t.take (m + 1)))
        omega
      · simp only [if_neg hsp, List.length_append, List.length_singleton]
        have h2 := pyRStripLengthLe (t.take (m + 1))
        omega
    · refine ⟨fun h => absurd h (by omega), fun _ => ⟨?_, ?_, ?_⟩⟩
      · simp only [shorten, ← ht, if_neg hle]
        by_cases hsp : spaceChar ∈ t.take (m + 1) <;>
          simp [hsp, List.getLast?_concat]
      · simp only [shorten, ← ht, if_neg hle]
        by_cases hsp : spaceChar ∈ t.take (m + 1)
        · exact ⟨dropLastSpaceTail (t.take (m + 1)),
            dropLastSpaceTailPrefix _, by simp [hsp]⟩
        · exact ⟨t.take (m + 1), List.prefix_rfl, by simp [hsp]⟩
      · intro hsp
        simp only [shorten, ← ht, if_neg hle, if_pos hsp, List.length_append,
          List.length_singleton]
        have h1 := dropLastSpaceTailLength (t.take (m + 1))
        have h2 := pyRStripLengthLe (dropLastSpaceTail (t.take (m + 1)))
        omega

/-- C3 witness: the amended statement evaluated at a concrete input. -/
theorem shorten_spec_witness :
    (shorten (S " hello world ") 8).length ≤ 8 + 2 ∧
    ((pyStrip (S " hello world ")).length ≤ 8 →
      shorten (S " hello world ") 8 = pyStrip (S " hello world ")) ∧
    (8 < (pyStrip (S " hello world ")).length →
      (shorten (S " hello world ") 8).getLast? = some '…' ∧
      (∃ pre, pre <+: (pyStrip (S " hello world ")).take (8 + 1) ∧
        shorten (S " hello world ") 8 = pyRStrip pre ++ ['…']) ∧
      (spaceChar ∈ (pyStrip (S " hello world ")).take (8 + 1) →
        (shorten (S " hello world ") 8).length ≤ 8 + 1)) :=
  shorten_spec (S " hello world ") 8

/- ===================== C4 : prefix_parts ===================== -/

theorem enumFromLength (k : ℕ) (l : List α) : (enumFrom k l).length = l.length := by
  induction l generalizing k with
  | nil => rfl
  | cons a t ih => simp [enumFrom, ih]

theorem enumFromGet (k : ℕ) (l : List α) (i : ℕ) :
    (enumFrom k l)[i]? = (l[i]?).map (fun c => (k + i, c)) := by
  induction l generalizing k i with
  | nil => simp [enumFrom]
  | cons a t ih =>
    cases i with
    | zero => simp [enumFrom]
    | succ j =>
      simp only [enumFrom, List.getElem?_cons_succ, ih (k + 1) j]
      cases t[j]?
      · simp
      · simp
        omega

/-- C4 counterexample: with two chunks, the FIRST chunk also receives the
`(1/2)` marker, contradicting "the first chunk is emitted without a
marker". -/
theorem prefix_parts_counterexample :
    prefix_parts [S "a", S "b"] = [S "(1/2)\na", S "(2/2)\nb"] ∧
    S "(1/2)\na" ≠ S "a" := by decide

/-- C4 amended: a list of at most one chunk is returned unchanged; when
there are two or more chunks, EVERY chunk `i` of `total` (the first
included) is prefixed with `(i/total)` followed by a newline. -/
theorem prefix_parts_spec (chunks : List Str) :
    (chunks.length ≤ 1 → prefix_parts chunks = chunks) ∧
    (2 ≤ chunks.length →
      (prefix_parts chunks).length = chunks.length ∧
      ∀ i c, chunks[i]? = some c →
        (prefix_parts chunks)[i]? =
          some (S "(" ++ natStr (i + 1) ++ S "/" ++ natStr chunks.length ++
            S ")\n" ++ c)) := by
  constructor
  · intro h
    simp [prefix_parts, h]
  · intro h
    have hnot : ¬ chunks.length ≤ 1 := by omega
    refine ⟨?_, ?_⟩
    · simp [prefix_parts, hnot, enumFromLength]
    · intro i c hc
      simp only [prefix_parts, if_neg hnot, List.getElem?_map, enumFromGet,
        hc, Option.map_some]
      simp [Nat.add_comm 1 i]

/-- C4 witness: the amended statement evaluated at a concrete input. -/
theorem prefix_parts_spec_witness :
    (([S "x", S "y", S "z"] : List Str).length ≤ 1 →
      prefix_parts [S "x", S "y", S "z"] = [S "x", S "y", S "z"]) ∧
    (2 ≤ ([S "x", S "y", S "z"] : List Str).length →
      (prefix_parts [S "x", S "y", S "z"]).length =
        ([S "x", S "y", S "z"] : List Str).length ∧
      ∀ i c, ([S "x", S "y", S "z"] : List Str)[i]? = some c →
        (prefix_parts [S "x", S "y", S "z"])[i]? =
          some (S "(" ++ natStr (i + 1) ++ S "/" ++
            natStr ([S "x", S "y", S "z"] : List Str).length ++ S ")\n" ++ c)) :=
  prefix_parts_spec [S "x", S "y", S "z"]

/- ===================== C2 : ensure_room ===================== -/

/-- C2 counterexample: with column 1 active (cursor 50) and plenty of room
in column 0 (cursor 400), a block of height 100 fits column 0, yet
`ensure_room` opens a new page: the other-column fallback only exists when
the active column is column 0. -/
theorem ensure_room_counterexample :
    (bottomQ ≤ (LayoutState.mk 400 50 1 1).colY0 - 100 ∨
      bottomQ ≤ (LayoutState.mk 400 50 1 1).colY1 - 100) ∧
    (ensure_room 100 (LayoutState.mk 400 50 1 1)).page ≠
      (LayoutState.mk 400 50 1 1).page := by
  have hfit0 : bottomQ ≤ (400 : ℚ) - 100 := by norm_num [bottomQ, inchQ]
  have hnofit1 : ¬ bottomQ ≤ (50 : ℚ) - 100 := by norm_num [bottomQ, inchQ]
  refine ⟨Or.inl hfit0, ?_⟩
  have hc1 : ¬ bottomQ ≤ colYAt (LayoutState.mk 400 50 1 1)
      (LayoutState.mk 400 50 1 1).currentCol - 100 := hnofit1
  have hc2 : ¬ ((LayoutState.mk 400 50 1 1).currentCol = 0 ∧
      bottomQ ≤ (LayoutState.mk 400 50 1 1).colY1 - 100) := by
    rintro ⟨h, -⟩
    exact absurd h (by decide)
  unfold ensure_room
  rw [if_neg hc1, if_neg hc2]
  simp

/-- C2 amended: `ensure_room` keeps the current page exactly when the block
fits the ACTIVE column, or the active column is column 0 and the block fits
column 1.  In particular, when column 1 is active and the block does not fit
it, a new page is opened even if column 0 could hold the block.  When it
fits the active column the state is unchanged; in the column-switch case
only the active column changes. -/
theorem ensure_room_spec (need : ℚ) (s : LayoutState) :
    ((ensure_room need s).page = s.page ↔
      bottomQ ≤ colYAt s s.currentCol - need ∨
        (s.currentCol = 0 ∧ bottomQ ≤ s.colY1 - need)) ∧
    ((ensure_room need s).page = s.page ∨
      (ensure_room need s).page = s.page + 1) ∧
    (bottomQ ≤ colYAt s s.currentCol - need → ensure_room need s = s) ∧
    (¬ bottomQ ≤ colYAt s s.currentCol - need → s.currentCol = 0 →
      bottomQ ≤ s.colY1 - need →
      ensure_room need s = { s with currentCol := 1 }) := by
  unfold ensure_room
  split_ifs with h1 h2
  · exact ⟨Iff.intro (fun _ => Or.inl h1) (fun _ => rfl), Or.inl rfl,
      fun _ => rfl, fun hn => absurd h1 hn⟩
  · exact ⟨Iff.intro (fun _ => Or.inr h2) (fun _ => rfl), Or.inl rfl,
      fun hfit => absurd hfit h1, fun _ _ _ => rfl⟩
  · exact ⟨Iff.intro (fun h => absurd (show s.page + 1 = s.page from h) (by omega))
        (fun h => h.elim (fun hh => absurd hh h1) (fun hh => absurd hh h2)),
      Or.inr rfl, fun hfit => absurd hfit h1,
      fun _ hc0 hcf => absurd ⟨hc0, hcf⟩ h2⟩

/-- C2 witness: the amended statement evaluated at a concrete state. -/
theorem ensure_room_spec_witness :
    ((ensure_room 30 (LayoutState.mk 500 500 0 1)).page =
        (LayoutState.mk 500 500 0 1).page ↔
      bottomQ ≤ colYAt (LayoutState.mk 500 500 0 1)
          (LayoutState.mk 500 500 0 1).currentCol - 30 ∨
        ((LayoutState.mk 500 500 0 1).currentCol = 0 ∧
          bottomQ ≤ (LayoutState.mk 500 500 0 1).colY1 - 30)) ∧
    ((ensure_room 30 (LayoutState.mk 500 500 0 1)).page =
        (LayoutState.mk 500 500 0 1).page ∨
      (ensure_room 30 (LayoutState.mk 500 500 0 1)).page =
        (LayoutState.mk 500 500 0 1).page + 1) ∧
    (bottomQ ≤ colYAt (LayoutState.mk 500 500 0 1)
        (LayoutState.mk 500 500 0 1).currentCol - 30 →
      ensure_room 30 (LayoutState.mk 500 500 0 1) =
        LayoutState.mk 500 500 0 1) ∧
    (¬ bottomQ ≤ colYAt (LayoutState.mk 500 500 0 1)
        (LayoutState.mk 500 500 0 1).currentCol - 30 →
      (LayoutState.mk 500 500 0 1).currentCol = 0 →
      bottomQ ≤ (LayoutState.mk 500 500 0 1).colY1 - 30 →
      ensure_room 30 (LayoutState.mk 500 500 0 1) =
        { LayoutState.mk 500 500 0 1 with currentCol := 1 }) :=
  ensure_room_spec 30 (LayoutState.mk 500 500 0 1)

/- ===================== C9 : classify ===================== -/

/-- C9: the source classifier agrees everywhere with the spec's precedence
chain (zero-day family, then ransomware, then breach, then phishing, else
OTHER, case-insensitive substring tests over title+summary), and an article
mentioning both "ransomware" and "breach" (and no zero-day term) is
classified RANSOMWARE.  `classify` is a total function into the five-value
category type, so every article receives exactly one category. -/
theorem classify_matches_spec :
    (∀ title summary, classify title summary = classify_spec title summary) ∧
    classify (S "Corp hit by ransomware after data breach") [] =
      NewsCategory.ransomware := by
  constructor
  · intro title summary
    simp only [classify, classify_spec, List.any_cons, List.any_nil,
      Bool.or_false, Bool.or_assoc]
  · decide


/- ===================== C1 : deduplication accumulators ===================== -/

theorem ratioAbAb : ratioVal (S "ab") (S "ab") = 1 := by
  have hm : matchTotal (S "ab") (S "ab") ((S "ab").length + 1)
      (0, (S "ab").length, 0, (S "ab").length) = 2 := by decide
  unfold ratioVal
  rw [hm]
  have hl : (S "ab").length = 2 := rfl
  rw [hl]
  norm_num

theorem isDupAbSeen :
    is_duplicate_title (S "ab") [S "ab"] DUPLICATE_THRESHOLD = true := by
  unfold is_duplicate_title
  simp only [List.any_cons, List.any_nil, Bool.or_false, decide_eq_true_eq]
  have h : pyStrip (pyLower (S "ab")) = S "ab" := rfl
  rw [h, ratioAbAb]
  norm_num [DUPLICATE_THRESHOLD]

theorem dedupCxRun :
    dedupRun [⟨S "ab", S "l1"⟩, ⟨S "ab", S "l2"⟩] =
      ⟨[S "ab"], [S "l1", S "l2"], [⟨S "ab", S "l1"⟩]⟩ := by
  have e1 : dedupStep ⟨[], [], []⟩ ⟨S "ab", S "l1"⟩ =
      ⟨[S "ab"], [S "l1"], [⟨S "ab", S "l1"⟩]⟩ := rfl
  have e2 : dedupStep ⟨[S "ab"], [S "l1"], [⟨S "ab", S "l1"⟩]⟩
      ⟨S "ab", S "l2"⟩ = ⟨[S "ab"], [S "l1", S "l2"], [⟨S "ab", S "l1"⟩]⟩ := by
    have hT : (((⟨S "ab", S "l2"⟩ : FeedCand).title = ([] : Str))) = False :=
      eq_false (by decide)
    have hM : ((S "l2" : Str) ∈ [S "l1"]) = False := eq_false (by decide)
    have hL2 : (((⟨S "ab", S "l2"⟩ : FeedCand).link ≠ ([] : Str))) = True :=
      eq_true (by decide)
    simp only [dedupStep, hT, hM, hL2, true_and, and_false, if_true, if_false,
      ite_true, ite_false, isDupAbSeen, List.singleton_append]
  calc dedupRun [⟨S "ab", S "l1"⟩, ⟨S "ab", S "l2"⟩]
      = dedupStep (dedupStep ⟨[], [], []⟩ ⟨S "ab", S "l1"⟩)
          ⟨S "ab", S "l2"⟩ := rfl
    _ = dedupStep ⟨[S "ab"], [S "l1"], [⟨S "ab", S "l1"⟩]⟩
          ⟨S "ab", S "l2"⟩ := by rw [e1]
    _ = ⟨[S "ab"], [S "l1", S "l2"], [⟨S "ab", S "l1"⟩]⟩ := e2

/-- C1 counterexample: two candidates with identical titles and distinct
links.  The second is rejected by the title-similarity check, yet its link
`l2` ends up in the seen-links set, because the link is recorded BEFORE the
title check runs — contradicting "its canonical link is added to the
seen-links set ... only if that candidate is accepted". -/
theorem dedup_links_counterexample :
    S "l2" ∈ (dedupRun [⟨S "ab", S "l1"⟩, ⟨S "ab", S "l2"⟩]).seenLinks ∧
    S "l2" ∉ (dedupRun [⟨S "ab", S "l1"⟩,
      ⟨S "ab", S "l2"⟩]).accepted.map FeedCand.link := by
  rw [dedupCxRun]
  exact ⟨by decide, by decide⟩

theorem dedupStepInv (st : DedupState) (c : FeedCand)
    (h1 : st.seenTitles = st.accepted.map FeedCand.title)
    (h2 : ∀ x ∈ st.accepted, x.link ≠ [] → x.link ∈ st.seenLinks) :
    (dedupStep st c).seenTitles = (dedupStep st c).accepted.map FeedCand.title ∧
    ∀ x ∈ (dedupStep st c).accepted, x.link ≠ [] →
      x.link ∈ (dedupStep st c).seenLinks := by
  by_cases hT : c.title = []
  · simp only [dedupStep, if_pos hT]
    exact ⟨h1, h2⟩
  by_cases hL : c.link ≠ [] ∧ c.link ∈ st.seenLinks
  · simp only [dedupStep, if_neg hT, if_pos hL]
    exact ⟨h1, h2⟩
  by_cases hLk : c.link = []
  · have hLk' : ¬ c.link ≠ [] := by exact fun h => h hLk
    simp only [dedupStep, if_neg hT, if_neg hL, if_neg hLk']
    by_cases hD : is_duplicate_title c.title st.seenTitles DUPLICATE_THRESHOLD =
        true
    · simp only [if_pos hD]
      exact ⟨h1, h2⟩
    · simp only [if_neg hD]
      refine ⟨by simp [h1], ?_⟩
      intro x hx hxl
      rcases List.mem_append.mp hx with hx' | hx'
      · exact h2 x hx' hxl
      · simp only [List.mem_singleton] at hx'
        subst hx'
        exact absurd hLk hxl
  · have hLk' : c.link ≠ [] := hLk
    simp only [dedupStep, if_neg hT, if_neg hL, if_pos hLk']
    by_cases hD : is_duplicate_title c.title st.seenTitles DUPLICATE_THRESHOLD =
        true
    · simp only [if_pos hD]
      refine ⟨h1, ?_⟩
      intro x hx hxl
      exact List.mem_append_left _ (h2 x hx hxl)
    · simp only [if_neg hD]
      refine ⟨by simp [h1], ?_⟩
      intro x hx hxl
      rcases List.mem_append.mp hx with hx' | hx'
      · exact List.mem_append_left _ (h2 x hx' hxl)
      · simp only [List.mem_singleton] at hx'
        subst hx'
        exact List.mem_append_right _ (by simp)

/-- C1 amended: throughout the deduplication loop the seen-titles list holds
exactly the titles of the accepted articles, in acceptance order, and every
accepted article's non-empty link is in the seen-links set; but the
seen-links set may additionally hold links of candidates later rejected by
the title-similarity check, because a fresh link is recorded before that
check.  Additions still happen before the next candidate is evaluated (the
state is threaded through a left fold). -/
theorem dedup_invariant (cands : List FeedCand) :
    (dedupRun cands).seenTitles = (dedupRun cands).accepted.map FeedCand.title ∧
    ∀ c ∈ (dedupRun cands).accepted, c.link ≠ [] →
      c.link ∈ (dedupRun cands).seenLinks := by
  suffices h : ∀ (l : List FeedCand) (st : DedupState),
      st.seenTitles = st.accepted.map FeedCand.title →
      (∀ c ∈ st.accepted, c.link ≠ [] → c.link ∈ st.seenLinks) →
      (l.foldl dedupStep st).seenTitles =
        (l.foldl dedupStep st).accepted.map FeedCand.title ∧
      ∀ c ∈ (l.foldl dedupStep st).accepted, c.link ≠ [] →
        c.link ∈ (l.foldl dedupStep st).seenLinks by
    exact h cands ⟨[], [], []⟩ rfl (by intro c hc; simp at hc)
  intro l
  induction l with
  | nil => intro st hA hB; exact ⟨hA, hB⟩
  | cons c t ih =>
    intro st hA hB
    simp only [List.foldl_cons]
    obtain ⟨hA', hB'⟩ := dedupStepInv st c hA hB
    exact ih (dedupStep st c) hA' hB'

/-- C1 witness: the amended statement evaluated at a concrete input. -/
theorem dedup_invariant_witness :
    (dedupRun [⟨S "a", S "x"⟩]).seenTitles =
      (dedupRun [⟨S "a", S "x"⟩]).accepted.map FeedCand.title ∧
    ∀ c ∈ (dedupRun [⟨S "a", S "x"⟩]).accepted, c.link ≠ [] →
      c.link ∈ (dedupRun [⟨S "a", S "x"⟩]).seenLinks :=
  dedup_invariant [⟨S "a", S "x"⟩]

/- ===================== C6 : stable descending ranking ===================== -/

theorem ordInsertPerm (a : ScoredItem) (l : List ScoredItem) :
    (ordInsert a l).Perm (a :: l) := by
  induction l with
  | nil => exact List.Perm.refl _
  | cons b t ih =>
    unfold ordInsert
    by_cases h : b.score ≤ a.score
    · rw [if_pos h]
    · rw [if_neg h]
      exact (ih.cons b).trans (List.Perm.swap a b t)

theorem sortDescPerm (l : List ScoredItem) : (sortDesc l).Perm l := by
  induction l with
  | nil => exact List.Perm.refl _
  | cons a t ih =>
    exact (ordInsertPerm a (sortDesc t)).trans (ih.cons a)

theorem ordInsertPairwise (a : ScoredItem) (l : List ScoredItem)
    (hp : l.Pairwise (fun x y => y.score ≤ x.score ∧
      (x.score = y.score → x.idx < y.idx)))
    (hidx : ∀ y ∈ l, a.idx < y.idx) :
    (ordInsert a l).Pairwise (fun x y => y.score ≤ x.score ∧
      (x.score = y.score → x.idx < y.idx)) := by
  induction l with
  | nil => simp [ordInsert]
  | cons b t ih =>
    rcases List.pairwise_cons.mp hp with ⟨hbt, hpt⟩
    unfold ordInsert
    by_cases h : b.score ≤ a.score
    · rw [if_pos h]
      refine List.pairwise_cons.mpr ⟨?_, hp⟩
      intro y hy
      rcases List.mem_cons.mp hy with rfl | hy'
      · exact ⟨h, fun _ => hidx y (List.mem_cons_self _ _)⟩
      · exact ⟨(hbt y hy').1.trans h,
          fun _ => hidx y (List.mem_cons_of_mem b hy')⟩
    · rw [if_neg h]
      push_neg at h
      refine List.pairwise_cons.mpr
        ⟨?_, ih hpt (fun y hy => hidx y (List.mem_cons_of_mem b hy))⟩
      intro y hy
      have hy' : y ∈ a :: t := (ordInsertPerm a t).mem_iff.mp hy
      rcases List.mem_cons.mp hy' with rfl | hy''
      · refine ⟨h.le, fun he => ?_⟩
        rw [he] at h
        exact absurd h (lt_irrefl _)
      · exact hbt y hy''

theorem sortDescPairwise (l : List ScoredItem)
    (h : l.Pairwise (fun a b => a.idx < b.idx)) :
    (sortDesc l).Pairwise (fun x y => y.score ≤ x.score ∧
      (x.score = y.score → x.idx < y.idx)) := by
  induction l with
  | nil => simp [sortDesc]
  | cons a t ih =>
    rcases List.pairwise_cons.mp h with ⟨hat, ht⟩
    show (ordInsert a (sortDesc t)).Pairwise _
    apply ordInsertPairwise
    · exact ih ht
    · intro y hy
      exact hat y ((sortDescPerm t).mem_iff.mp hy)

/-- C6: on any input whose encounter indices increase left to right, the
final ranking step returns at most `TOP_N` articles (exactly
`min TOP_N n`), drawn from a permutation of the input, sorted descending by
score, and with equal scores ordered by encounter index — the stable
descending sort of lines 461-462 followed by truncation. -/
theorem ranked_list_spec (l : List ScoredItem)
    (h : l.Pairwise (fun a b => a.idx < b.idx)) :
    (collect_and_rank_order l).length = min TOP_N l.length ∧
    (sortDesc l).Perm l ∧
    (collect_and_rank_order l).Pairwise (fun a b => b.score ≤ a.score) ∧
    (collect_and_rank_order l).Pairwise
      (fun a b => a.score = b.score → a.idx < b.idx) := by
  have hperm := sortDescPerm l
  have hpw := sortDescPairwise l h
  have hsub : List.Sublist (collect_and_rank_order l) (sortDesc l) :=
    List.take_sublist _ _
  refine ⟨?_, hperm, ?_, ?_⟩
  · simp [collect_and_rank_order, List.length_take, hperm.length_eq]
  · exact (hpw.sublist hsub).imp (fun hc => hc.1)
  · exact (hpw.sublist hsub).imp (fun hc => hc.2)

/-- C6 witness: the statement evaluated at a concrete input with a tie. -/
theorem ranked_list_spec_witness :
    (collect_and_rank_order [⟨3, 0⟩, ⟨5, 1⟩, ⟨3, 2⟩]).length =
      min TOP_N ([⟨3, 0⟩, ⟨5, 1⟩, ⟨3, 2⟩] : List ScoredItem).length ∧
    (sortDesc [⟨3, 0⟩, ⟨5, 1⟩, ⟨3, 2⟩]).Perm [⟨3, 0⟩, ⟨5, 1⟩, ⟨3, 2⟩] ∧
    (collect_and_rank_order [⟨3, 0⟩, ⟨5, 1⟩, ⟨3, 2⟩]).Pairwise
      (fun a b => b.score ≤ a.score) ∧
    (collect_and_rank_order [⟨3, 0⟩, ⟨5, 1⟩, ⟨3, 2⟩]).Pairwise
      (fun a b => a.score = b.score → a.idx < b.idx) :=
  ranked_list_spec [⟨3, 0⟩, ⟨5, 1⟩, ⟨3, 2⟩] (by decide)

/- ===================== C10 : wrap_url_smart ===================== -/

theorem pyLStripNoWs (l : Str) (h : ∀ c ∈ l, isWs c = false) :
    pyLStrip l = l := by
  cases l with
  | nil => rfl
  | cons c t => simp [pyLStrip, List.dropWhile_cons, h c (List.mem_cons_self c t)]

theorem pyRStripNoWs (l : Str) (h : ∀ c ∈ l, isWs c = false) :
    pyRStrip l = l := by
  unfold pyRStrip
  have hrw : l.reverse.dropWhile isWs = l.reverse := by
    cases hrev : l.reverse with
    | nil => simp
    | cons c t =>
      have hc : isWs c = false := by
        refine h c ?_
        rw [← List.mem_reverse, hrev]
        exact List.mem_cons_self _ _
      simp [List.dropWhile_cons, hc]
  rw [hrw, List.reverse_reverse]

theorem pyStripNoWs (l : Str) (h : ∀ c ∈ l, isWs c = false) :
    pyStrip l = l := by
  unfold pyStrip
  rw [pyLStripNoWs l h, pyRStripNoWs l h]

theorem pyStripAllWs (l : Str) (h : ∀ c ∈ l, isWs c = true) :
    pyStrip l = [] := by
  unfold pyStrip pyLStrip
  have hdw : l.dropWhile isWs = [] :=
    List.dropWhile_eq_nil_iff.mpr (fun x hx => h x hx)
  rw [hdw]
  rfl

theorem wrapStepJoin (w : Char → ℚ) (maxw : ℚ) (st : WrapSt) (ch : Char)
    (hcur : ∀ c ∈ st.cur, isWs c = false) (hch : isWs ch = false) :
    (wrapStep w maxw st ch).lines.flatten ++ (wrapStep w maxw st ch).cur =
      st.lines.flatten ++ st.cur ++ [ch] ∧
    ∀ c ∈ (wrapStep w maxw st ch).cur, isWs c = false := by
  have hmem : ∀ c ∈ st.cur ++ [ch], isWs c = false := by
    intro c hc
    rcases List.mem_append.mp hc with h | h
    · exact hcur c h
    · simp only [List.mem_singleton] at h
      subst h
      exact hch
  simp only [wrapStep]
  by_cases hw : widthOf w (st.cur ++ [ch]) ≤ maxw
  · rw [if_pos hw]
    exact ⟨by simp [List.append_assoc], hmem⟩
  · rw [if_neg hw]
    generalize (if isBreakChar ch then (((st.cur ++ [ch]).length : ℕ) : Int)
      else st.lbp) = lbp1
    have htake : pyRStrip (st.cur.take lbp1.toNat) = st.cur.take lbp1.toNat :=
      pyRStripNoWs _ (fun c hc => hcur c (List.take_subset _ _ hc))
    have hdrop : pyLStrip (st.cur.drop lbp1.toNat) = st.cur.drop lbp1.toNat :=
      pyLStripNoWs _ (fun c hc => hcur c (List.drop_subset _ _ hc))
    by_cases hpos : 0 < lbp1
    · rw [if_pos hpos, htake, hdrop]
      by_cases hne : st.cur.drop lbp1.toNat ≠ []
      · rw [if_pos hne]
        constructor
        · have hsplit : st.cur.take lbp1.toNat ++
              (st.cur.drop lbp1.toNat ++ [ch]) = st.cur ++ [ch] := by
            rw [← List.append_assoc, List.take_append_drop]
          simp only [List.flatten_append, List.flatten_cons, List.flatten_nil,
            List.append_nil, List.append_assoc, hsplit]
        · intro c hc
          rcases List.mem_append.mp hc with h | h
          · exact hcur c (List.drop_subset _ _ h)
          · simp only [List.mem_singleton] at h
            subst h
            exact hch
      · rw [if_neg hne]
        push_neg at hne
        have hlen : st.cur.length ≤ lbp1.toNat := by
          have := congrArg List.length hne
          simp only [List.length_drop, List.length_nil] at this
          omega
        have htk : st.cur.take lbp1.toNat = st.cur :=
          List.take_of_length_le hlen
        constructor
        · simp only [List.flatten_append, List.flatten_cons, List.flatten_nil,
            List.append_nil, List.append_assoc, htk]
        · intro c hc
          simp only [List.mem_singleton] at hc
          subst hc
          exact hch
    · rw [if_neg hpos]
      by_cases hc : st.cur ≠ []
      · rw [if_pos hc]
        constructor
        · simp [List.flatten_append, List.append_assoc]
        · intro c hcm
          simp only [List.mem_singleton] at hcm
          subst hcm
          exact hch
      · rw [if_neg hc]
        push_neg at hc
        constructor
        · simp [List.flatten_append, hc]
        · intro c hcm
          exact absurd hcm (List.not_mem_nil c)

theorem wrapFoldJoin (w : Char → ℚ) (maxw : ℚ) (cs : Str) :
    ∀ st : WrapSt, (∀ c ∈ st.cur, isWs c = false) →
      (∀ c ∈ cs, isWs c = false) →
      ((cs.foldl (wrapStep w maxw) st).lines.flatten ++
        (cs.foldl (wrapStep w maxw) st).cur =
        st.lines.flatten ++ st.cur ++ cs) ∧
      (∀ c ∈ (cs.foldl (wrapStep w maxw) st).cur, isWs c = false) := by
  induction cs with
  | nil =>
    intro st hcur _
    exact ⟨by simp, hcur⟩
  | cons ch t ih =>
    intro st hcur hcs
    have hch : isWs ch = false := hcs ch (List.mem_cons_self _ _)
    have hts : ∀ c ∈ t, isWs c = false :=
      fun c hc => hcs c (List.mem_cons_of_mem ch hc)
    obtain ⟨hstep, hstepcur⟩ := wrapStepJoin w maxw st ch hcur hch
    obtain ⟨hrest, hrestcur⟩ := ih (wrapStep w maxw st ch) hstepcur hts
    refine ⟨?_, hrestcur⟩
    simp only [List.foldl_cons] at *
    rw [hrest, hstep]
    simp [List.append_assoc]

/-- C10: for a URL with no whitespace characters and a positive width
budget, concatenating the wrapped lines in order reproduces the URL exactly
(no character is dropped or duplicated by the break insertion); and an
empty or all-whitespace URL yields the empty list of lines. -/
theorem wrap_url_preserves (w : Char → ℚ) (maxw : ℚ) (url : Str) :
    (0 < maxw → (∀ c ∈ url, isWs c = false) →
      (wrap_url_smart w maxw url).flatten = url) ∧
    ((∀ c ∈ url, isWs c = true) → wrap_url_smart w maxw url = []) := by
  constructor
  · intro _ hws
    unfold wrap_url_smart
    rw [pyStripNoWs url hws]
    by_cases hnil : url = []
    · rw [if_pos hnil]
      simp [hnil]
    · rw [if_neg hnil]
      obtain ⟨hjoin, -⟩ :=
        wrapFoldJoin w maxw url ⟨[], [], -1⟩ (by intro c hc; simp at hc) hws
      by_cases hcur : (url.foldl (wrapStep w maxw) ⟨[], [], -1⟩).cur ≠ []
      · rw [if_pos hcur]
        simpa [List.flatten_append] using hjoin
      · rw [if_neg hcur]
        push_neg at hcur
        rw [hcur, List.append_nil] at hjoin
        simpa using hjoin
  · intro hws
    unfold wrap_url_smart
    rw [pyStripAllWs url hws]
    simp

/-- C10 witness: the statement evaluated at a concrete URL and width. -/
theorem wrap_url_preserves_witness :
    (0 < (3 : ℚ) → (∀ c ∈ S "https://ex.com/a", isWs c = false) →
      (wrap_url_smart (fun _ => 1) 3 (S "https://ex.com/a")).flatten =
        S "https://ex.com/a") ∧
    ((∀ c ∈ S "https://ex.com/a", isWs c = true) →
      wrap_url_smart (fun _ => 1) 3 (S "https://ex.com/a") = []) :=
  wrap_url_preserves (fun _ => 1) 3 (S "https://ex.com/a")

/- ===================== C7 : score antitone in age ===================== -/

theorem halfEvenIntBounds (y : ℝ) :
    y - 1 / 2 ≤ (halfEvenInt y : ℝ) ∧ (halfEvenInt y : ℝ) ≤ y + 1 / 2 := by
  unfold halfEvenInt
  by_cases hf : Int.fract y = 1 / 2
  · have hy : y = (⌊y⌋ : ℝ) + 1 / 2 := by
      have h' : y - (⌊y⌋ : ℝ) = 1 / 2 := by
        rw [Int.self_sub_floor]
        exact hf
      linarith
    rw [if_pos hf]
    by_cases he : Even ⌊y⌋
    · rw [if_pos he]
      constructor <;> [linarith; linarith]
    · rw [if_neg he]
      push_cast
      constructor <;> [linarith; linarith]
  · rw [if_neg hf]
    have h := abs_sub_round y
    rw [abs_le] at h
    constructor <;> [linarith [h.2]; linarith [h.1]]

theorem halfEvenIntMono {y1 y2 : ℝ} (h : y1 ≤ y2) :
    halfEvenInt y1 ≤ halfEvenInt y2 := by
  rcases eq_or_lt_of_le h with rfl | hlt
  · exact le_refl _
  by_contra hcon
  push_neg at hcon
  have hint : halfEvenInt y2 + 1 ≤ halfEvenInt y1 := hcon
  have hcast : (halfEvenInt y2 : ℝ) + 1 ≤ (halfEvenInt y1 : ℝ) := by
    exact_mod_cast hint
  have hb1 := halfEvenIntBounds y1
  have hb2 := halfEvenIntBounds y2
  linarith [hb1.2, hb2.1]

theorem pyRound1Mono {x1 x2 : ℝ} (h : x1 ≤ x2) : pyRound1 x1 ≤ pyRound1 x2 := by
  unfold pyRound1
  have hm : halfEvenInt (10 * x1) ≤ halfEvenInt (10 * x2) :=
    halfEvenIntMono (by linarith)
  have hc : (halfEvenInt (10 * x1) : ℝ) ≤ (halfEvenInt (10 * x2) : ℝ) := by
    exact_mod_cast hm
  linarith

theorem recencyAntitone {h1 h2 : ℝ} (h : h1 ≤ h2) :
    recency_score h2 ≤ recency_score h1 := by
  unfold recency_score
  set m : ℝ := max 1 (LOOKBACK_HOURS : ℝ) with hm
  set s : ℝ := max 2 (m / 4) with hs
  have hspos : 0 < s := lt_of_lt_of_le two_pos (le_max_left _ _)
  have hkey : Real.exp ((h1 - m) / s) ≤ Real.exp ((h2 - m) / s) :=
    Real.exp_le_exp.mpr ((div_le_div_iff_of_pos_right hspos).mpr (by linarith))
  have hp1 : (0 : ℝ) < 1 + Real.exp ((h1 - m) / s) := by
    have := Real.exp_pos ((h1 - m) / s)
    linarith
  have hp2 : (0 : ℝ) < 1 + Real.exp ((h2 - m) / s) := by
    have := Real.exp_pos ((h2 - m) / s)
    linarith
  rw [div_le_div_iff₀ hp2 hp1]
  nlinarith [hkey]

/-- C7: for two articles identical in title, summary and source (hence with
equal keyword and source score terms), the computed final score is
monotonically non-increasing in article age: increasing `hours_old` never
increases the score, through the logistic recency decay, the `max(0, ·)`
clamp, and the round-half-even to one decimal place. -/
theorem score_age_antitone (kw src h1 h2 : ℝ) (hh : h1 ≤ h2) :
    compute_score_from kw src h2 ≤ compute_score_from kw src h1 := by
  unfold compute_score_from
  apply pyRound1Mono
  have hr := recencyAntitone hh
  have hmax : max 0 (recency_score h2) ≤ max 0 (recency_score h1) :=
    max_le_max le_rfl hr
  linarith

/-- C7 witness: the statement evaluated at concrete ages 72h versus 73h. -/
theorem score_age_antitone_witness :
    (72 : ℝ) ≤ 73 ∧ compute_score_from 80 20 73 ≤ compute_score_from 80 20 72 :=
  ⟨by norm_num, score_age_antitone 80 20 72 73 (by norm_num)⟩

/- ===================== C8 : ellipsize_line_to_width ===================== -/

theorem widthOfNonneg (w : Char → ℚ) (hw : ∀ c, 0 ≤ w c) (s : Str) :
    0 ≤ widthOf w s := by
  unfold widthOf
  apply List.sum_nonneg
  intro x hx
  obtain ⟨c, -, rfl⟩ := List.mem_map.mp hx
  exact hw c

theorem widthOfAppend (w : Char → ℚ) (a b : Str) :
    widthOf w (a ++ b) = widthOf w a + widthOf w b := by
  simp [widthOf]

theorem widthOfPrefixLe (w : Char → ℚ) (hw : ∀ c, 0 ≤ w c) {a b : Str}
    (h : a <+: b) : widthOf w a ≤ widthOf w b := by
  obtain ⟨t, rfl⟩ := h
  rw [widthOfAppend]
  have := widthOfNonneg w hw t
  linarith

theorem dropWhileAppendSuffix (p : Char → Bool) (a b : Str) :
    b.dropWhile p <:+ (a ++ b).dropWhile p := by
  induction a with
  | nil => simp
  | cons c t ih =>
    by_cases hc : p c
    · simpa [List.dropWhile_cons, hc] using ih
    · simp only [List.cons_append, List.dropWhile_cons, hc, if_neg]
      exact ((dropWhileIsSuffix p b).trans (List.suffix_append t b)).trans
        (List.suffix_cons c (t ++ b))

theorem pyRStripPrefixMono {p q : Str} (h : p <+: q) :
    pyRStrip p <+: pyRStrip q := by
  obtain ⟨t, rfl⟩ := h
  unfold pyRStrip
  rw [List.reverse_prefix]
  rw [List.reverse_append]
  exact dropWhileAppendSuffix isWs t.reverse p.reverse

theorem ellCandWidthMono (w : Char → ℚ) (hw : ∀ c, 0 ≤ w c) (text : Str)
    {m m' : ℕ} (h : m ≤ m') :
    widthOf w (ellCand text m) ≤ widthOf w (ellCand text m') := by
  unfold ellCand
  rw [widthOfAppend, widthOfAppend]
  have hp : text.take m <+: text.take m' :=
    List.take_isPrefix_take.mpr (Or.inl h)
  have := widthOfPrefixLe w hw (pyRStripPrefixMono hp)
  linarith

theorem ellCandNeNil (text : Str) (m : ℕ) : ellCand text m ≠ [] := by
  unfold ellCand
  simp

theorem ellLoopNoFit (w : Char → ℚ) (maxw : ℚ) (text : Str)
    (hnf : ∀ m : ℕ, ¬ widthOf w (ellCand text m) ≤ maxw) :
    ∀ (fuel : ℕ) (lo hi : Int), ellLoop w maxw text fuel lo hi [] = [] := by
  intro fuel
  induction fuel with
  | zero => intro lo hi; rfl
  | succ n ih =>
    intro lo hi
    unfold ellLoop
    by_cases hexit : hi < lo
    · rw [if_pos hexit]
    · rw [if_neg hexit, if_neg (hnf _)]
      exact ih _ _

theorem ellLoopFind (w : Char → ℚ) (maxw : ℚ) (text : Str)
    (hw : ∀ c, 0 ≤ w c)
    (hP0 : widthOf w (ellCand text 0) ≤ maxw) :
    ∀ (fuel : ℕ) (lo hi : Int) (best : Str),
      0 ≤ lo → lo ≤ hi + 1 → hi ≤ (text.length : Int) →
      ((Nat.findGreatest (fun m => widthOf w (ellCand text m) ≤ maxw)
        text.length : ℕ) : Int) ≤ hi →
      ((lo = 0 ∧ best = []) ∨
        (0 < lo ∧ best = ellCand text (lo - 1).toNat ∧
          widthOf w (ellCand text (lo - 1).toNat) ≤ maxw)) →
      (hi + 1 - lo).toNat < fuel →
      ellLoop w maxw text fuel lo hi best =
        ellCand text (Nat.findGreatest
          (fun m => widthOf w (ellCand text m) ≤ maxw) text.length) := by
  set P : ℕ → Prop := fun m => widthOf w (ellCand text m) ≤ maxw with hPdef
  set M : ℕ := Nat.findGreatest P text.length with hMdef
  have hPM : P M := Nat.findGreatest_spec (Nat.zero_le _) hP0
  have hnotP : ∀ m : ℕ, m ≤ text.length → ¬ P m → M < m := by
    intro m hmn hm
    by_contra hc
    push_neg at hc
    exact hm (le_trans (ellCandWidthMono w hw text hc) hPM)
  intro fuel
  induction fuel with
  | zero => intro lo hi best _ _ _ _ _ hf; omega
  | succ n ih =>
    intro lo hi best hlo0 hlohi hhin hMhi hbest hfuel
    unfold ellLoop
    by_cases hexit : hi < lo
    · rw [if_pos hexit]
      have hlo1 : lo = hi + 1 := by omega
      rcases hbest with ⟨hl0, -⟩ | ⟨hlpos, hbeq, hbP⟩
      · omega
      · have h1 : (lo - 1).toNat ≤ M := by
          have := Nat.le_findGreatest (P := P)
            (show (lo - 1).toNat ≤ text.length by omega) hbP
          omega
        have h2 : (M : Int) ≤ lo - 1 := by omega
        have : (lo - 1).toNat = M := by omega
        rw [hbeq, this]
    · rw [if_neg hexit]
      have hmidb : lo ≤ (lo + hi) / 2 ∧ (lo + hi) / 2 ≤ hi := by omega
      by_cases hfit : widthOf w (ellCand text ((lo + hi) / 2).toNat) ≤ maxw
      · rw [if_pos hfit]
        apply ih
        · omega
        · omega
        · exact hhin
        · exact hMhi
        · right
          refine ⟨by omega, ?_, ?_⟩
          · have : ((lo + hi) / 2 + 1 - 1) = (lo + hi) / 2 := by omega
            rw [this]
          · have : ((lo + hi) / 2 + 1 - 1) = (lo + hi) / 2 := by omega
            rw [this]
            exact hfit
        · omega
      · rw [if_neg hfit]
        have hMlt : M < ((lo + hi) / 2).toNat :=
          hnotP _ (by omega) hfit
        apply ih
        · exact hlo0
        · omega
        · omega
        · omega
        · exact hbest
        · omega

/-- C8: when the text already fits, it is returned unchanged.  Otherwise the
result is `text[:M].rstrip() + "…"` where `M` is the GREATEST prefix length
whose rstripped form plus ellipsis fits the width (`Nat.findGreatest`); it
therefore ends in the ellipsis character and fits the width whenever the
bare ellipsis does; and when even the bare ellipsis does not fit, the bare
ellipsis itself is returned.  Character widths are assumed nonnegative
(reportlab font metrics are). -/
theorem ellipsize_spec (w : Char → ℚ) (maxw : ℚ) (text : Str)
    (hw : ∀ c, 0 ≤ w c) :
    (widthOf w text ≤ maxw → ellipsize_line_to_width w maxw text = text) ∧
    (¬ widthOf w text ≤ maxw →
      ellipsize_line_to_width w maxw text =
        ellCand text (Nat.findGreatest
          (fun m => widthOf w (ellCand text m) ≤ maxw) text.length) ∧
      (ellipsize_line_to_width w maxw text).getLast? = some '…' ∧
      (∀ m ≤ text.length, widthOf w (ellCand text m) ≤ maxw →
        m ≤ Nat.findGreatest
          (fun m => widthOf w (ellCand text m) ≤ maxw) text.length) ∧
      (widthOf w ['…'] ≤ maxw →
        widthOf w (ellipsize_line_to_width w maxw text) ≤ maxw) ∧
      (¬ widthOf w ['…'] ≤ maxw →
        ellipsize_line_to_width w maxw text = ['…'])) := by
  have hell : ellCand text 0 = ['…'] := rfl
  constructor
  · intro hfit
    unfold ellipsize_line_to_width
    rw [if_pos hfit]
  · intro hnofit
    have hmain : ellipsize_line_to_width w maxw text =
        ellCand text (Nat.findGreatest
          (fun m => widthOf w (ellCand text m) ≤ maxw) text.length) := by
      unfold ellipsize_line_to_width
      rw [if_neg hnofit]
      by_cases hP0 : widthOf w (ellCand text 0) ≤ maxw
      · have hle := Nat.findGreatest_le
          (P := fun m => widthOf w (ellCand text m) ≤ maxw) text.length
        have hloop := ellLoopFind w maxw text hw hP0 (text.length + 2) 0
          (text.length : Int) [] (le_refl 0) (by omega) (le_refl _) (by omega)
          (Or.inl ⟨rfl, rfl⟩) (by omega)
        rw [hloop, if_neg (ellCandNeNil text _)]
      · have hnf : ∀ m : ℕ, ¬ widthOf w (ellCand text m) ≤ maxw :=
          fun m hm =>
            hP0 (le_trans (ellCandWidthMono w hw text (Nat.zero_le m)) hm)
        rw [ellLoopNoFit w maxw text hnf _ _ _, if_pos rfl]
        have hM0 : Nat.findGreatest
            (fun m => widthOf w (ellCand text m) ≤ maxw) text.length = 0 :=
          Nat.findGreatest_eq_zero_iff.mpr (fun n _ _ hP => hnf n hP)
        rw [hM0, hell]
    refine ⟨hmain, ?_, ?_, ?_, ?_⟩
    · rw [hmain]
      unfold ellCand
      rw [List.getLast?_concat]
    · intro m hmn hPm
      exact Nat.le_findGreatest hmn hPm
    · intro hP0
      rw [hmain]
      exact Nat.findGreatest_spec
        (P := fun m => widthOf w (ellCand text m) ≤ maxw) (Nat.zero_le _)
        (show widthOf w (ellCand text 0) ≤ maxw by rw [hell]; exact hP0)
    · intro hnP0
      rw [hmain]
      have hM0 : Nat.findGreatest
          (fun m => widthOf w (ellCand text m) ≤ maxw) text.length = 0 := by
        rw [Nat.findGreatest_eq_zero_iff]
        intro n _ _ hP
        have h0 : widthOf w (ellCand text 0) ≤ maxw :=
          le_trans (ellCandWidthMono w hw text (Nat.zero_le n)) hP
        rw [hell] at h0
        exact hnP0 h0
      rw [hM0, hell]

/-- C8 witness: the statement evaluated at unit widths and budget 3. -/
theorem ellipsize_spec_witness :
    (widthOf (fun _ => 1) (S "abcdef") ≤ 3 →
      ellipsize_line_to_width (fun _ => 1) 3 (S "abcdef") = S "abcdef") ∧
    (¬ widthOf (fun _ => 1) (S "abcdef") ≤ 3 →
      ellipsize_line_to_width (fun _ => 1) 3 (S "abcdef") =
        ellCand (S "abcdef") (Nat.findGreatest
          (fun m => widthOf (fun _ => (1 : ℚ)) (ellCand (S "abcdef") m) ≤ 3)
          (S "abcdef").length) ∧
      (ellipsize_line_to_width (fun _ => 1) 3 (S "abcdef")).getLast? =
        some '…' ∧
      (∀ m ≤ (S "abcdef").length,
        widthOf (fun _ => 1) (ellCand (S "abcdef") m) ≤ 3 →
        m ≤ Nat.findGreatest
          (fun m => widthOf (fun _ => (1 : ℚ)) (ellCand (S "abcdef") m) ≤ 3)
          (S "abcdef").length) ∧
      (widthOf (fun _ => 1) ['…'] ≤ 3 →
        widthOf (fun _ => 1) (ellipsize_line_to_width (fun _ => 1) 3
          (S "abcdef")) ≤ 3) ∧
      (¬ widthOf (fun _ => 1) ['…'] ≤ 3 →
        ellipsize_line_to_width (fun _ => 1) 3 (S "abcdef") = ['…'])) :=
  ellipsize_spec (fun _ => 1) 3 (S "abcdef") (fun _ => by norm_num)

/- ===================== C5 : chunk_text ===================== -/

theorem stripNoopEdge (p : Str) (h1 : noWsHead p = true)
    (h2 : noWsLast p = true) : pyStrip p = p := by
  cases p with
  | nil => rfl
  | cons c t =>
    have hc : isWs c = false := by
      simp only [noWsHead, List.head?_cons] at h1
      simpa using h1
    have hls : pyLStrip (c :: t) = c :: t := by
      simp [pyLStrip, List.dropWhile_cons, hc]
    unfold pyStrip
    rw [hls]
    cases hrev : (c :: t).reverse with
    | nil => exact absurd (congrArg List.length hrev) (by simp)
    | cons d r =>
      have hd : isWs d = false := by
        have hgl : (c :: t).getLast? = some d := by
          rw [← List.head?_reverse, hrev, List.head?_cons]
        simp only [noWsLast, hgl] at h2
        simpa using h2
      unfold pyRStrip
      rw [hrev, List.dropWhile_cons, hd]
      simp only [Bool.false_eq_true, if_false]
      rw [← hrev, List.reverse_reverse]

theorem noWsHeadAppend (a b : Str) (h : noWsHead a = true) (ha : a ≠ []) :
    noWsHead (a ++ b) = true := by
  cases a with
  | nil => exact absurd rfl ha
  | cons c t => simpa [noWsHead] using h

theorem noWsLastAppend (a b : Str) (h : noWsLast b = true) (hb : b ≠ []) :
    noWsLast (a ++ b) = true := by
  unfold noWsLast
  rw [List.getLast?_append_of_ne_nil a hb]
  exact h

theorem joinNNConsCons (p q : Str) (rest : List Str) :
    joinNN (p :: q :: rest) = p ++ nnSep ++ joinNN (q :: rest) := rfl

theorem joinNNNeNil (g : List Str) (hne : g ≠ []) (hq : ∀ q ∈ g, q ≠ []) :
    joinNN g ≠ [] := by
  cases g with
  | nil => exact absurd rfl hne
  | cons p t =>
    cases t with
    | nil => exact hq p (List.mem_singleton.mpr rfl)
    | cons q r =>
      rw [joinNNConsCons]
      intro h
      rcases List.append_eq_nil.mp h with ⟨h1, -⟩
      rcases List.append_eq_nil.mp h1 with ⟨-, h2⟩
      exact absurd h2 (by simp [nnSep])

theorem joinNNAppendSingle (g : List Str) (p : Str) (h : g ≠ []) :
    joinNN (g ++ [p]) = joinNN g ++ nnSep ++ p := by
  induction g with
  | nil => exact absurd rfl h
  | cons a t ih =>
    cases t with
    | nil => rfl
    | cons b r =>
      have h1 : (a :: b :: r) ++ [p] = a :: b :: (r ++ [p]) := rfl
      have h2 : (b : Str) :: (r ++ [p]) = (b :: r) ++ [p] := rfl
      calc joinNN ((a :: b :: r) ++ [p])
          = a ++ nnSep ++ joinNN (b :: (r ++ [p])) := by
            rw [h1, joinNNConsCons]
        _ = a ++ nnSep ++ joinNN ((b :: r) ++ [p]) := by rw [h2]
        _ = a ++ nnSep ++ (joinNN (b :: r) ++ nnSep ++ p) := by
            rw [ih (by simp)]
        _ = (a ++ nnSep ++ joinNN (b :: r)) ++ nnSep ++ p := by
            simp [List.append_assoc]
        _ = joinNN (a :: b :: r) ++ nnSep ++ p := by rw [joinNNConsCons]

theorem joinNNHeadOk (g : List Str) (hne : g ≠ [])
    (hq : ∀ q ∈ g, q ≠ [] ∧ noWsHead q = true) : noWsHead (joinNN g) = true := by
  cases g with
  | nil => exact absurd rfl hne
  | cons p t =>
    have hp := hq p (List.mem_cons_self _ _)
    cases t with
    | nil => exact hp.2
    | cons q r =>
      rw [joinNNConsCons]
      exact noWsHeadAppend _ _ (noWsHeadAppend _ _ hp.2 hp.1)
        (by intro h; exact hp.1 (List.append_eq_nil.mp h).1)

theorem joinNNLastOk (g : List Str) (hne : g ≠ [])
    (hq : ∀ q ∈ g, q ≠ [] ∧ noWsLast q = true) : noWsLast (joinNN g) = true := by
  induction g with
  | nil => exact absurd rfl hne
  | cons p t ih =>
    cases t with
    | nil => exact (hq p (List.mem_cons_self _ _)).2
    | cons q r =>
      rw [joinNNConsCons]
      have hqr : ∀ x ∈ q :: r, x ≠ [] ∧ noWsLast x = true :=
        fun x hx => hq x (List.mem_cons_of_mem p hx)
      have hjne : joinNN (q :: r) ≠ [] :=
        joinNNNeNil (q :: r) (by simp) (fun x hx => (hqr x hx).1)
      exact noWsLastAppend _ _ (ih (by simp) hqr) hjne

theorem splitNNSingle (p : Str) (h : NoNN p) : splitNN p = [p] := by
  induction p with
  | nil => rfl
  | cons c t ih =>
    cases t with
    | nil => rfl
    | cons c2 r =>
      have hcc : ¬(c = '\n' ∧ c2 = '\n') := (List.chain'_cons.mp h).1
      have ht : NoNN (c2 :: r) := (List.chain'_cons.mp h).2
      show splitNN (c :: c2 :: r) = [c :: c2 :: r]
      rw [splitNN, if_neg hcc, ih ht]

theorem splitNNAppend (rest : Str) (p : Str) (hchain : NoNN p)
    (hlast : ∀ c, p.getLast? = some c → c ≠ '\n') :
    splitNN (p ++ '\n' :: '\n' :: rest) = p :: splitNN rest := by
  induction p with
  | nil =>
    show splitNN ('\n' :: '\n' :: rest) = [] :: splitNN rest
    rw [splitNN, if_pos ⟨rfl, rfl⟩]
  | cons c t ih =>
    cases t with
    | nil =>
      have hc : c ≠ '\n' := hlast c (by simp)
      show splitNN (c :: '\n' :: '\n' :: rest) = [c] :: splitNN rest
      rw [splitNN, if_neg (by intro hand; exact hc hand.1)]
      have hrec : splitNN ('\n' :: '\n' :: rest) = [] :: splitNN rest := by
        rw [splitNN, if_pos ⟨rfl, rfl⟩]
      rw [hrec]
    | cons c2 r =>
      have hcc : ¬(c = '\n' ∧ c2 = '\n') := (List.chain'_cons.mp hchain).1
      have ht : NoNN (c2 :: r) := (List.chain'_cons.mp hchain).2
      have hlast' : ∀ x, (c2 :: r).getLast? = some x → x ≠ '\n' := by
        intro x hx
        exact hlast x (by rw [List.getLast?_cons_cons]; exact hx)
      have hassoc : (c :: c2 :: r) ++ '\n' :: '\n' :: rest =
          c :: ((c2 :: r) ++ '\n' :: '\n' :: rest) := rfl
      rw [hassoc]
      have hassoc2 : (c2 :: r) ++ '\n' :: '\n' :: rest =
          c2 :: (r ++ '\n' :: '\n' :: rest) := rfl
      show splitNN (c :: c2 :: (r ++ '\n' :: '\n' :: rest)) =
        (c :: c2 :: r) :: splitNN rest
      rw [splitNN, if_neg hcc]
      have hrec : splitNN (c2 :: (r ++ '\n' :: '\n' :: rest)) =
          (c2 :: r) :: splitNN rest := by
        rw [← hassoc2]
        exact ih ht hlast'
      rw [hrec]

theorem splitNNJoin (paras : List Str) (hne : paras ≠ [])
    (hq : ∀ p ∈ paras, NoNN p ∧ (∀ c, p.getLast? = some c → c ≠ '\n')) :
    splitNN (joinNN paras) = paras := by
  induction paras with
  | nil => exact absurd rfl hne
  | cons p t ih =>
    have hp := hq p (List.mem_cons_self _ _)
    cases t with
    | nil => exact splitNNSingle p hp.1
    | cons q r =>
      rw [joinNNConsCons]
      have hsep : p ++ nnSep ++ joinNN (q :: r) =
          p ++ '\n' :: '\n' :: joinNN (q :: r) := by
        rw [List.append_assoc]
        rfl
      rw [hsep, splitNNAppend (joinNN (q :: r)) p hp.1 hp.2]
      rw [ih (by simp) (fun x hx => hq x (List.mem_cons_of_mem p hx))]

theorem hardSplitNoop (max_len : ℕ) (fuel : ℕ) (p : Str)
    (h : p.length ≤ max_len) : hardSplit max_len fuel p = ([], p) := by
  cases fuel with
  | zero => rfl
  | succ n =>
    rw [hardSplit, if_neg (by omega)]

theorem hardSplitLen (max_len : ℕ) (hml : 1 ≤ max_len) :
    ∀ (fuel : ℕ) (p : Str), p.length ≤ fuel →
      (∀ c ∈ (hardSplit max_len fuel p).1, c.length ≤ max_len) ∧
      (hardSplit max_len fuel p).2.length ≤ max_len := by
  intro fuel
  induction fuel with
  | zero =>
    intro p hp
    constructor
    · intro c hc
      exact absurd hc (by simp [hardSplit])
    · have hr : (hardSplit max_len 0 p).2 = p := rfl
      rw [hr]
      omega
  | succ n ih =>
    intro p hp
    by_cases hlen : max_len < p.length
    · rw [hardSplit, if_pos hlen]
      obtain ⟨ih1, ih2⟩ := ih (p.drop max_len) (by simp; omega)
      constructor
      · intro c hc
        rcases List.mem_cons.mp hc with rfl | hc'
        · simp [List.length_take]
        · exact ih1 c hc'
      · exact ih2
    · rw [hardSplit, if_neg hlen]
      constructor
      · intro c hc
        exact absurd hc (List.not_mem_nil c)
      · show p.length ≤ max_len
        omega

theorem chunkStepGood (max_len : ℕ) (chunks : List Str) (bufg : List Str)
    (p : Str) (hp : GoodPara p) (hplen : p.length ≤ max_len)
    (hbufg : ∀ q ∈ bufg, GoodPara q) :
    (bufg = [] →
      chunkStep max_len (chunks, joinNN bufg) p = (chunks, joinNN [p])) ∧
    (bufg ≠ [] → (joinNN (bufg ++ [p])).length ≤ max_len →
      chunkStep max_len (chunks, joinNN bufg) p =
        (chunks, joinNN (bufg ++ [p]))) ∧
    (bufg ≠ [] → ¬ (joinNN (bufg ++ [p])).length ≤ max_len →
      chunkStep max_len (chunks, joinNN bufg) p =
        (chunks ++ [joinNN bufg], joinNN [p])) := by
  obtain ⟨hpne, hph, hpl, hpn⟩ := hp
  have hstrip : pyStrip p = p := stripNoopEdge p hph hpl
  have hgoodapp : ∀ hb : bufg ≠ [],
      pyStrip (joinNN bufg ++ (if joinNN bufg ≠ [] then nnSep else []) ++ p) =
        joinNN (bufg ++ [p]) := by
    intro hb
    have hbufne : joinNN bufg ≠ [] :=
      joinNNNeNil bufg hb (fun q hq => (hbufg q hq).1)
    rw [if_pos hbufne, ← joinNNAppendSingle bufg p hb]
    apply stripNoopEdge
    · apply joinNNHeadOk _ (by simp)
      intro q hq
      rcases List.mem_append.mp hq with h | h
      · exact ⟨(hbufg q h).1, (hbufg q h).2.1⟩
      · simp only [List.mem_singleton] at h
        subst h
        exact ⟨hpne, hph⟩
    · apply joinNNLastOk _ (by simp)
      intro q hq
      rcases List.mem_append.mp hq with h | h
      · exact ⟨(hbufg q h).1, (hbufg q h).2.2.1⟩
      · simp only [List.mem_singleton] at h
        subst h
        exact ⟨hpne, hpl⟩
  refine ⟨?_, ?_, ?_⟩
  · intro hb
    subst hb
    show chunkStep max_len (chunks, []) p = (chunks, p)
    simp only [chunkStep, hstrip, if_neg hpne]
    rw [if_neg (show ¬(([] : Str) ≠ []) by simp)]
    simp only [List.nil_append, hstrip, if_pos hplen]
  · intro hb hfits
    simp only [chunkStep, hstrip, if_neg hpne]
    rw [hgoodapp hb, if_pos hfits]
  · intro hb hnofits
    have hbufne : joinNN bufg ≠ [] :=
      joinNNNeNil bufg hb (fun q hq => (hbufg q hq).1)
    simp only [chunkStep, hstrip, if_neg hpne]
    rw [hgoodapp hb, if_neg hnofits, if_pos hbufne,
      hardSplitNoop max_len p.length p hplen]
    show (chunks ++ [joinNN bufg] ++ [], p) = (chunks ++ [joinNN bufg], joinNN [p])
    simp
    rfl

theorem chunkFoldGood (max_len : ℕ) :
    ∀ (ps : List Str), (∀ p ∈ ps, GoodPara p ∧ p.length ≤ max_len) →
    ∀ (groups : List (List Str)) (bufg : List Str),
      (∀ g ∈ groups, g ≠ []) →
      (∀ q ∈ bufg, GoodPara q ∧ q.length ≤ max_len) →
      ∃ (groups' : List (List Str)) (bufg' : List Str),
        ps.foldl (chunkStep max_len) (groups.map joinNN, joinNN bufg) =
          (groups'.map joinNN, joinNN bufg') ∧
        groups'.flatten ++ bufg' = groups.flatten ++ bufg ++ ps ∧
        (∀ g ∈ groups', g ≠ []) ∧
        (∀ q ∈ bufg', GoodPara q ∧ q.length ≤ max_len) := by
  intro ps
  induction ps with
  | nil =>
    intro _ groups bufg hg hb
    exact ⟨groups, bufg, rfl, by simp, hg, hb⟩
  | cons p t ih =>
    intro hps groups bufg hg hb
    have hp := hps p (List.mem_cons_self _ _)
    have hts : ∀ x ∈ t, GoodPara x ∧ x.length ≤ max_len :=
      fun x hx => hps x (List.mem_cons_of_mem p hx)
    obtain ⟨hs0, hs1, hs2⟩ := chunkStepGood max_len (groups.map joinNN) bufg p
      hp.1 hp.2 (fun q hq => (hb q hq).1)
    simp only [List.foldl_cons]
    by_cases hbe : bufg = []
    · rw [hs0 hbe]
      obtain ⟨g', b', heq, hflat, hg', hb'⟩ := ih hts groups [p] hg
        (by
          intro q hq
          simp only [List.mem_singleton] at hq
          subst hq
          exact hp)
      refine ⟨g', b', heq, ?_, hg', hb'⟩
      rw [hflat, hbe]
      simp
    · by_cases hfit : (joinNN (bufg ++ [p])).length ≤ max_len
      · rw [hs1 hbe hfit]
        obtain ⟨g', b', heq, hflat, hg', hb'⟩ := ih hts groups (bufg ++ [p]) hg
          (by
            intro q hq
            rcases List.mem_append.mp hq with h | h
            · exact hb q h
            · simp only [List.mem_singleton] at h
              subst h
              exact hp)
        refine ⟨g', b', heq, ?_, hg', hb'⟩
        rw [hflat]
        simp [List.append_assoc]
      · rw [hs2 hbe hfit]
        have hmap : groups.map joinNN ++ [joinNN bufg] =
            (groups ++ [bufg]).map joinNN := by simp
        rw [hmap]
        obtain ⟨g', b', heq, hflat, hg', hb'⟩ := ih hts (groups ++ [bufg]) [p]
          (by
            intro g hgm
            rcases List.mem_append.mp hgm with h | h
            · exact hg g h
            · simp only [List.mem_singleton] at h
              subst h
              exact hbe)
          (by
            intro q hq
            simp only [List.mem_singleton] at hq
            subst hq
            exact hp)
        refine ⟨g', b', heq, ?_, hg', hb'⟩
        rw [hflat]
        simp [List.flatten_append, List.append_assoc]

theorem chunkStepLen (max_len : ℕ) (hml : 1 ≤ max_len) (chunks : List Str)
    (buf : Str) (p : Str) (h1 : ∀ c ∈ chunks, c.length ≤ max_len)
    (h2 : buf.length ≤ max_len) :
    (∀ c ∈ (chunkStep max_len (chunks, buf) p).1, c.length ≤ max_len) ∧
    (chunkStep max_len (chunks, buf) p).2.length ≤ max_len := by
  simp only [chunkStep]
  by_cases hps : pyStrip p = []
  · rw [if_pos hps]
    exact ⟨h1, h2⟩
  · rw [if_neg hps]
    by_cases hfit : (pyStrip (buf ++ (if buf ≠ [] then nnSep else []) ++
        pyStrip p)).length ≤ max_len
    · rw [if_pos hfit]
      exact ⟨h1, hfit⟩
    · rw [if_neg hfit]
      obtain ⟨hh1, hh2⟩ := hardSplitLen max_len hml (pyStrip p).length
        (pyStrip p) (le_refl _)
      constructor
      · intro c hc
        rcases List.mem_append.mp hc with hcl | hcr
        · by_cases hbe : buf ≠ []
          · rw [if_pos hbe] at hcl
            rcases List.mem_append.mp hcl with h | h
            · exact h1 c h
            · simp only [List.mem_singleton] at h
              subst h
              exact h2
          · rw [if_neg hbe] at hcl
            exact h1 c hcl
        · exact hh1 c hcr
      · exact hh2

theorem chunkFoldLen (max_len : ℕ) (hml : 1 ≤ max_len) :
    ∀ (ps : List Str) (chunks : List Str) (buf : Str),
      (∀ c ∈ chunks, c.length ≤ max_len) → buf.length ≤ max_len →
      (∀ c ∈ (ps.foldl (chunkStep max_len) (chunks, buf)).1,
        c.length ≤ max_len) ∧
      (ps.foldl (chunkStep max_len) (chunks, buf)).2.length ≤ max_len := by
  intro ps
  induction ps with
  | nil =>
    intro chunks buf h1 h2
    exact ⟨h1, h2⟩
  | cons p t ih =>
    intro chunks buf h1 h2
    simp only [List.foldl_cons]
    obtain ⟨hh1, hh2⟩ := chunkStepLen max_len hml chunks buf p h1 h2
    have := ih (chunkStep max_len (chunks, buf) p).1
      (chunkStep max_len (chunks, buf) p).2 hh1 hh2
    simpa using this

theorem noWsLastNoNl (p : Str) (h : noWsLast p = true) :
    ∀ c, p.getLast? = some c → c ≠ '\n' := by
  intro c hc hcn
  subst hcn
  simp only [noWsLast, hc] at h
  exact absurd h (by decide)

/-- C5 counterexample: `chunk_text("abcdef\ng\n\nhi", 6)` hard-splits the
first paragraph `"abcdef\ng"` and then STRIPS the leading newline off the
remainder when the next paragraph is appended (the `candidate.strip()` at
line 507), so the paragraph's interior newline is lost: the first paragraph
is not even a prefix of the concatenation of the chunks, and the
concatenation matches neither the paragraphs concatenated directly nor the
paragraphs joined by blank lines. -/
theorem chunk_text_counterexample :
    chunk_text (S "abcdef\ng\n\nhi") 6 = [S "abcdef", S "g\n\nhi"] ∧
    parasOf (S "abcdef\ng\n\nhi") = [S "abcdef\ng", S "hi"] ∧
    (∀ c ∈ chunk_text (S "abcdef\ng\n\nhi") 6, c.length ≤ 6) ∧
    ¬ (S "abcdef\ng" <+: (chunk_text (S "abcdef\ng\n\nhi") 6).flatten) ∧
    (chunk_text (S "abcdef\ng\n\nhi") 6).flatten ≠
      (parasOf (S "abcdef\ng\n\nhi")).flatten ∧
    (chunk_text (S "abcdef\ng\n\nhi") 6).flatten ≠
      joinNN (parasOf (S "abcdef\ng\n\nhi")) := by decide

/-- C5 amended: for EVERY text and `max_len ≥ 1` each chunk has length at
most `max_len`; and when the text is exactly a non-empty list of well-formed
paragraphs (non-empty, no whitespace at the edges, no blank line inside,
each fitting `max_len`) joined by blank lines, the chunks are precisely
consecutive groups of those paragraphs re-joined by blank lines — so
concatenating the chunks reproduces every paragraph, in order.  In general a
hard-split paragraph can lose whitespace at the split boundary (see the
counterexample), which is what the amendment excludes. -/
theorem chunk_text_spec (text : Str) (paras : List Str) (max_len : ℕ)
    (hml : 1 ≤ max_len) (hpar : paras ≠ [])
    (hgood : ∀ p ∈ paras, GoodPara p ∧ p.length ≤ max_len) :
    (∀ c ∈ chunk_text text max_len, c.length ≤ max_len) ∧
    (text = joinNN paras →
      ∃ groups : List (List Str), (∀ g ∈ groups, g ≠ []) ∧
        chunk_text text max_len = groups.map joinNN ∧
        groups.flatten = paras) := by
  constructor
  · unfold chunk_text
    by_cases h0 : pyStrip text = []
    · rw [if_pos h0]
      intro c hc
      simp only [List.mem_singleton] at hc
      subst hc
      simp
    · rw [if_neg h0]
      by_cases h1 : (pyStrip text).length ≤ max_len
      · rw [if_pos h1]
        intro c hc
        simp only [List.mem_singleton] at hc
        subst hc
        exact h1
      · rw [if_neg h1]
        obtain ⟨hf1, hf2⟩ := chunkFoldLen max_len hml (splitNN (pyStrip text))
          [] [] (by intro c hc; exact absurd hc (List.not_mem_nil c))
          (by simp)
        by_cases hb : ((splitNN (pyStrip text)).foldl (chunkStep max_len)
            ([], [])).2 ≠ []
        · rw [if_pos hb]
          intro c hc
          rcases List.mem_append.mp hc with h | h
          · exact hf1 c h
          · simp only [List.mem_singleton] at h
            subst h
            exact hf2
        · rw [if_neg hb]
          exact hf1
  · intro htext
    subst htext
    have hqne : ∀ q ∈ paras, q ≠ [] := fun q hq => (hgood q hq).1.1
    have hjoinne : joinNN paras ≠ [] := joinNNNeNil paras hpar hqne
    have hstripj : pyStrip (joinNN paras) = joinNN paras :=
      stripNoopEdge _
        (joinNNHeadOk paras hpar
          (fun q hq => ⟨(hgood q hq).1.1, (hgood q hq).1.2.1⟩))
        (joinNNLastOk paras hpar
          (fun q hq => ⟨(hgood q hq).1.1, (hgood q hq).1.2.2.1⟩))
    unfold chunk_text
    rw [hstripj, if_neg hjoinne]
    by_cases hlen : (joinNN paras).length ≤ max_len
    · rw [if_pos hlen]
      refine ⟨[paras], ?_, rfl, by simp⟩
      intro g hg
      simp only [List.mem_singleton] at hg
      subst hg
      exact hpar
    · rw [if_neg hlen]
      have hsplit : splitNN (joinNN paras) = paras :=
        splitNNJoin paras hpar (fun p hp =>
          ⟨(hgood p hp).1.2.2.2, noWsLastNoNl p (hgood p hp).1.2.2.1⟩)
      rw [hsplit]
      obtain ⟨g', b', heq, hflat, hg', hb'⟩ :=
        chunkFoldGood max_len paras hgood [] []
          (fun g hg => absurd hg (List.not_mem_nil g))
          (fun q hq => absurd hq (List.not_mem_nil q))
      have heq' : paras.foldl (chunkStep max_len) ([], []) =
          (g'.map joinNN, joinNN b') := heq
      rw [heq']
      have hflat' : g'.flatten ++ b' = paras := by simpa using hflat
      by_cases hbne : b' = []
      · subst hbne
        rw [if_neg (by simp [joinNN])]
        exact ⟨g', hg', rfl, by simpa using hflat'⟩
      · have hjb : joinNN b' ≠ [] :=
          joinNNNeNil b' hbne (fun q hq => (hb' q hq).1.1)
        rw [if_pos hjb]
        refine ⟨g' ++ [b'], ?_, by simp, ?_⟩
        · intro g hg
          rcases List.mem_append.mp hg with h | h
          · exact hg' g h
          · simp only [List.mem_singleton] at h
            subst h
            exact hbne
        · simpa [List.flatten_append] using hflat'

theorem noNNOfNoNl (p : Str) (h : ∀ c ∈ p, ¬ c = '\n') : NoNN p := by
  unfold NoNN
  induction p with
  | nil => exact List.chain'_nil
  | cons c t ih =>
    cases t with
    | nil => exact List.chain'_singleton c
    | cons d r =>
      rw [List.chain'_cons]
      exact ⟨fun hand => h c (List.mem_cons_self _ _) hand.1,
        ih (fun x hx => h x (List.mem_cons_of_mem c hx))⟩

/-- C5 witness: the amended statement evaluated at three concrete
paragraphs with budget 8. -/
theorem chunk_text_spec_witness :
    ((∀ c ∈ chunk_text (joinNN [S "aaa", S "bbb", S "cc"]) 8,
      c.length ≤ 8) ∧
    (joinNN [S "aaa", S "bbb", S "cc"] = joinNN [S "aaa", S "bbb", S "cc"] →
      ∃ groups : List (List Str), (∀ g ∈ groups, g ≠ []) ∧
        chunk_text (joinNN [S "aaa", S "bbb", S "cc"]) 8 =
          groups.map joinNN ∧
        groups.flatten = [S "aaa", S "bbb", S "cc"])) :=
  chunk_text_spec (joinNN [S "aaa", S "bbb", S "cc"])
    [S "aaa", S "bbb", S "cc"] 8 (by omega) (by simp)
    (by
      intro p hp
      simp only [List.mem_cons] at hp
      rcases hp with rfl | rfl | rfl | hp
      · exact ⟨⟨by decide, by decide, by decide, noNNOfNoNl _ (by decide)⟩,
          by decide⟩
      · exact ⟨⟨by decide, by decide, by decide, noNNOfNoNl _ (by decide)⟩,
          by decide⟩
      · exact ⟨⟨by decide, by decide, by decide, noNNOfNoNl _ (by decide)⟩,
          by decide⟩
      · exact absurd hp (List.not_mem_nil p))
